import Mathlib

/-
Verification of the yopt command-line tokenizer and option accessor
(single header, class template `options<CharT>` plus the free function
`strip_quotes`).  The embedding works over `List Char` in place of
`std::basic_string_view<CharT>`: all observable behaviour of the claims is
content-based, so the narrow/wide instantiations coincide.  A C string is
modelled as a `List Char` (the characters before the terminating null);
reading at or past its length yields the null character, exactly as the
scanner of the source only ever reads up to the first null.
-/

set_option maxRecDepth 10000

namespace yopt

/-- Reading the scanned buffer at index `i`; positions at or past the end hold
the terminating null character. -/
def charAt (s : List Char) (i : Nat) : Char := s.getD i '\x00'

/-- The half-open token span `[a, b)` of the buffer, materialised. -/
def slice (s : List Char) (a b : Nat) : List Char := (s.drop a).take (b - a)

/-- Source `is_eol`. -/
def isEol (c : Char) : Bool := c = '\x00'

/-- Source `is_whitespace`. -/
def isWhitespace (c : Char) : Bool := c = ' ' || c = '\t' || c = '\r' || c = '\n'

/-- Source `is_dash`. -/
def isDash (c : Char) : Bool := c = '-'

/-- Source `is_quote`. -/
def isQuote (c : Char) : Bool := c = '"'

/-- Source `is_equal_sign`. -/
def isEqualSign (c : Char) : Bool := c = '='

/-- Source `yopt::max_length` (`YOPT_CMD_MAX_LENGTH`). -/
def max_length : Nat := 4096

/-- Lookup in the option map (`opts.find`); `std::map` over views compares by
content, so an association list with content equality is a faithful model of
every observation the accessors make. -/
def lookupA (m : List (List Char × List Char)) (k : List Char) : Option (List Char) :=
  match m with
  | [] => none
  | (k', v) :: t => if k' = k then some v else lookupA t k

/-- Source `opts[key];` — `std::map::operator[]` evaluated for its side effect:
inserts the key with an empty value if absent, and leaves an existing mapped
value unchanged. -/
def setDefault (m : List (List Char × List Char)) (k : List Char) :
    List (List Char × List Char) :=
  match lookupA m k with
  | some _ => m
  | none => m ++ [(k, [])]

/-- Source `opts[key] = v;` — insert or overwrite. -/
def storeOpt (m : List (List Char × List Char)) (k v : List Char) :
    List (List Char × List Char) :=
  match m with
  | [] => [(k, v)]
  | (k', v') :: t => if k' = k then (k, v) :: t else (k', v') :: storeOpt t k v

/-- The source enum `parse_state` (constructors in source order: `none`,
the one-dash state, the two-dash state, `key`, `value`, `quoted_value`). -/
inductive PState where
  | idle
  | dash1
  | dash2
  | inKey
  | inValue
  | inQuoted
deriving DecidableEq

/-- The parsed result: the vector `a` of free standing values and the map
`opts` of parsed key/values (class `options`, data members). -/
structure options where
  args : List (List Char)
  opts : List (List Char × List Char)
deriving DecidableEq

/-- The scanner variables live across one iteration of the `while` loop:
state, `token_start`, the pending `key` view (materialised — only its content
is ever observed) and the accumulated result. -/
structure Mid where
  ps : PState
  ts : Nat
  key : List Char
  acc : options

/-- One `switch (ps)` dispatch of `options::parse` on the character at `i`. -/
def stepState (single : Bool) (s : List Char) (i : Nat) (ps : PState) (ts : Nat)
    (key : List Char) (acc : options) : Mid :=
  let c := charAt s i
  match ps with
  | .idle =>
    if isWhitespace c = true then ⟨.idle, ts, key, acc⟩
    else if isDash c = true then
      ⟨.dash1, ts, key,
        if key.length > 0 then { acc with opts := setDefault acc.opts key } else acc⟩
    else if isQuote c = true then ⟨.inQuoted, i, key, acc⟩
    else ⟨.inValue, i, key, acc⟩
  | .dash1 =>
    if isDash c = true then ⟨.dash2, ts, key, acc⟩
    else if isWhitespace c = true then ⟨.idle, ts, key, acc⟩
    else ⟨.inKey, i, key, acc⟩
  | .dash2 =>
    if isWhitespace c = true then ⟨.idle, ts, key, acc⟩
    else ⟨.inKey, i, key, acc⟩
  | .inKey =>
    if isWhitespace c = true then
      ⟨.idle, ts, key,
        if ts < i then { acc with opts := setDefault acc.opts (slice s ts i) } else acc⟩
    else if isEqualSign c = true then ⟨.inValue, i + 1, slice s ts i, acc⟩
    else ⟨.inKey, ts, key, acc⟩
  | .inValue =>
    if isQuote c = true ∧ ts = i then ⟨.inQuoted, ts, key, acc⟩
    else if isWhitespace c = true ∧ single = false then
      ⟨.idle, ts, [],
        if key.length > 0 then { acc with opts := storeOpt acc.opts key (slice s ts i) }
        else { acc with args := acc.args ++ [slice s ts i] }⟩
    else ⟨.inValue, ts, key, acc⟩
  | .inQuoted =>
    if isQuote c = true then
      ⟨.idle, ts, [],
        if key.length > 0 then { acc with opts := storeOpt acc.opts key (slice s (ts + 1) i) }
        else { acc with args := acc.args ++ [slice s (ts + 1) i] }⟩
    else ⟨.inQuoted, ts, key, acc⟩

/-- The `/// handle trailing tokens` block, run when the current character is
the terminating null (after the switch has already processed it). -/
def flushEol (s : List Char) (i : Nat) (m : Mid) : options :=
  match m.ps with
  | .inKey =>
    if m.ts < i then { m.acc with opts := setDefault m.acc.opts (slice s m.ts i) }
    else m.acc
  | .inValue =>
    if m.key.length > 0 then { m.acc with opts := storeOpt m.acc.opts m.key (slice s m.ts i) }
    else if m.ts < i then { m.acc with args := m.acc.args ++ [slice s m.ts i] }
    else m.acc
  | .inQuoted =>
    if m.key.length > 0 then
      { m.acc with opts := storeOpt m.acc.opts m.key (slice s (m.ts + 1) i) }
    else { m.acc with args := m.acc.args ++ [slice s (m.ts + 1) i] }
  | _ => m.acc

/-- The `while (len < max_length)` loop of `options::parse`; `fuel` is the
number of loop iterations still allowed (`max_length - len`), `i` the current
offset of the cursor `c` into the buffer.  When fuel runs out the loop exits
without flushing; when the scanned character is the null terminator the
trailing token is flushed and the loop breaks. -/
def parseLoop (single : Bool) (s : List Char) :
    Nat → Nat → PState → Nat → List Char → options → options
  | 0, _, _, _, _, acc => acc
  | fuel + 1, i, ps, ts, key, acc =>
    let m := stepState single s i ps ts key acc
    if isEol (charAt s i) = true then flushEol s i m
    else parseLoop single s fuel (i + 1) m.ps m.ts m.key m.acc

/-- One call of `options::parse(s, single_value)` starting from a given
accumulated result. -/
def parseCall (single : Bool) (s : List Char) (acc : options) : options :=
  parseLoop single s max_length 0 .idle 0 [] acc

/-- Constructor `options(const CharT * cmd_line)` — one combined command
string, multi-token mode. -/
def optionsFromCmd (cmd : List Char) : options :=
  parseCall false cmd ⟨[], []⟩

/-- Constructor `options(int argc, const CharT ** argv)` — skips the first
element (program name) and parses each remaining element in single-value
mode. -/
def optionsFromArgv (argv : List (List Char)) : options :=
  (argv.drop 1).foldl (fun acc s => parseCall true s acc) ⟨[], []⟩

/-- Source `find_opt` (content lookup for both character widths). -/
def findOpt (o : options) (k : List Char) : Option (List Char) := lookupA o.opts k

/-- Source `options::has_opt`. -/
def hasOpt (o : options) (k : List Char) : Bool := (findOpt o k).isSome

/-- Source `options::get_string(key)`. -/
def getString (o : options) (k : List Char) : Option (List Char) := findOpt o k

/-- Source `options::get_string(key, default_value)`. -/
def getStringD (o : options) (k d : List Char) : List Char := (getString o k).getD d

/-- Source `options::get_required_string`: `std::out_of_range("option not
provided")` is modelled as the `Except.error` carrying that message. -/
def getRequiredString (o : options) (k : List Char) : Except String (List Char) :=
  match getString o k with
  | none => .error "option not provided"
  | some v => .ok v

/-- The static set `true_values` of `get_bool`. -/
def trueValues : List (List Char) :=
  ["TRUE".toList, "true".toList, "T".toList, "YES".toList, "yes".toList,
   "Y".toList, "y".toList, "1".toList]

/-- The static set `false_values` of `get_bool`. -/
def falseValues : List (List Char) :=
  ["FALSE".toList, "false".toList, "F".toList, "NO".toList, "no".toList,
   "N".toList, "n".toList, "0".toList]

/-- Source `options::get_bool`: `throw std::invalid_argument(...)` is modelled
as the `Except.error` carrying the source message. -/
def getBool (o : options) (k : List Char) (d : Bool) : Except String Bool :=
  match getString o k with
  | none => .ok d
  | some v =>
    if v = [] then .ok true
    else if trueValues.contains v then .ok true
    else if falseValues.contains v then .ok false
    else .error "boolean option argument not recognized"

/-- Decimal digit value of a digit character. -/
def digitVal (c : Char) : Nat := c.toNat - 48

/-- Decimal value of a digit run. -/
def natOfDigits (ds : List Char) : Nat := ds.foldl (fun a c => a * 10 + digitVal c) 0

/-- `INT_MIN` of the `int` instantiation `std::from_chars` writes to. -/
def intMin : Int := -2147483648

/-- `INT_MAX` of the same instantiation. -/
def intMax : Int := 2147483647

/-- `std::from_chars(first, last, value)` for `int`, base 10, with the source's
`r.ec == std::errc()` observation: an optional leading minus sign (a plus is
rejected), then the longest run of decimal digits; succeeds iff that run is
nonempty and the signed value of the whole run fits in `int`.  Characters
after the digit run are ignored (partial parse). -/
def fromCharsInt (s : List Char) : Option Int :=
  let neg := s.head? = some '-'
  let t := if neg then s.tail else s
  let ds := t.takeWhile Char.isDigit
  if ds = [] then none
  else
    let v : Int := (if neg then -1 else 1) * (natOfDigits ds : Int)
    if intMin ≤ v ∧ v ≤ intMax then some v else none

/-- Source `options::get_int(key)` (narrow instantiation: the stored view is
handed to `from_chars` directly). -/
def getInt (o : options) (k : List Char) : Option Int :=
  (getString o k).bind fromCharsInt

/-- Source `options::get_int(key, default_value)`. -/
def getIntD (o : options) (k : List Char) (d : Int) : Int := (getInt o k).getD d

/-- Source `options::arg_count`. -/
def argCount (o : options) : Nat := o.args.length

/-- Source `strip_quotes`, with iterators modelled as offsets.  The result is
`none` exactly when the source commits an out-of-bounds access: on the empty
view the source evaluates `*b` at the end iterator before its `b != end(s)`
guard, and a returned range `[b, e+1)` reaching past the view is likewise out
of bounds. -/
def stripQuotes (s : List Char) : Option (List Char) :=
  if s.length = 0 then none
  else
    let b : Nat := if charAt s 0 = '"' ∧ 0 ≠ s.length then 1 else 0
    let e : Nat :=
      if s.length ≠ b then
        if charAt s (s.length - 1) = '"' ∧ s.length - 1 ≠ b then s.length - 2
        else s.length - 1
      else s.length
    if e + 1 ≤ s.length then some (slice s b (e + 1)) else none

/-- Reading of a token view per the spec's words for the amended C4: one
leading double quote is removed when the first character is one. -/
def stripLead (s : List Char) : List Char :=
  if s.head? = some '"' then s.tail else s

/-- Reading of a token view per the amended C4: one trailing double quote is
removed when the last character is one and it is not also the first remaining
character (at least two characters are left after the leading strip). -/
def stripTrail (t : List Char) : List Char :=
  if t.getLast? = some '"' ∧ 2 ≤ t.length then t.dropLast else t

/- ### Helper lemmas about the buffer model -/

theorem charAt_cons_succ (a : Char) (t : List Char) (i : Nat) :
    charAt (a :: t) (i + 1) = charAt t i :=
  List.getD_cons_succ

theorem charAt_eq_null (s : List Char) (i : Nat) (h : s.length ≤ i) :
    charAt s i = '\x00' := by
  simp [charAt, List.getD_eq_getElem?_getD, List.getElem?_eq_none h]

theorem lt_length_of_not_eol (s : List Char) (i : Nat)
    (h : isEol (charAt s i) = false) : i < s.length := by
  by_contra hle
  rw [charAt_eq_null s i (Nat.le_of_not_lt hle)] at h
  simp [isEol] at h

theorem charAt_mem (s : List Char) (i : Nat) (h : i < s.length) :
    charAt s i ∈ s := by
  rw [charAt, List.getD_eq_getElem?_getD, List.getElem?_eq_getElem h]
  exact List.getElem_mem h

theorem charAt_replicate (n j : Nat) (a : Char) (h : j < n) :
    charAt (List.replicate n a) j = a := by
  simp [charAt, List.getD_eq_getElem?_getD, List.getElem?_replicate, h]

theorem slice_ne_nil (s : List Char) (a b : Nat) (hab : a < b)
    (ha : a < s.length) : slice s a b ≠ [] := by
  simp only [slice, ne_eq, List.take_eq_nil_iff, List.drop_eq_nil_iff, not_or]
  constructor
  · omega
  · omega

/- ### Claim C10 -/

/-- C10: the claim that `strip_quotes` is total and in-bounds on every input
is violated by the code: on the empty view the source dereferences the end
iterator before its guard, and on the one-character double-quote view the
returned range `[b, e+1)` reaches one past the end of the input; the model
reports both out-of-bounds accesses as `none`. -/
theorem c10_stripQuotes_oob :
    stripQuotes [] = none ∧ stripQuotes ['"'] = none :=
  ⟨rfl, by decide⟩

/- ### Claim C4 -/

/-- C4 counterexample: on the two-character string of two double quotes,
`strip_quotes` returns the one-character double-quote string, not the empty
string claimed. -/
theorem c4_counterexample :
    stripQuotes ("\"\"".toList) = some ("\"".toList) ∧
    ("\"".toList : List Char) ≠ [] :=
  ⟨by decide, by decide⟩

/-- C4 (amended): for every input view that is non-empty and is not the
one-character double-quote view (on which the result range is out of bounds),
`strip_quotes` removes one leading double quote when the first character is a
double quote, and then one trailing double quote when the last character is a
double quote that is not also the first remaining character; in particular the
two-double-quote string yields a single double quote rather than the empty
string, and a string with only a leading or only a trailing quote loses just
that quote. -/
theorem c4_stripQuotes_amended (s : List Char) (h1 : s ≠ []) (h2 : s ≠ ['"']) :
    stripQuotes s = some (stripTrail (stripLead s)) := by
  obtain ⟨a, t, rfl⟩ := List.exists_cons_of_ne_nil h1
  rcases List.eq_nil_or_concat t with rfl | ⟨mid, z, rfl⟩
  · have ha : ¬(a = '"') := by rintro rfl; exact h2 rfl
    simp [stripQuotes, stripLead, stripTrail, charAt, slice, ha]
  · simp only [List.concat_eq_append]
    have hlen : (a :: (mid ++ [z])).length = mid.length + 2 := by simp
    have hc0 : charAt (a :: (mid ++ [z])) 0 = a := rfl
    have hclast : charAt (a :: (mid ++ [z])) (mid.length + 2 - 1) = z := by
      have hx : mid.length + 2 - 1 = mid.length + 1 := by omega
      rw [hx, charAt_cons_succ]
      simp [charAt, List.getD_eq_getElem?_getD, List.getElem?_concat_length]
    have hlast : (a :: (mid ++ [z])).getLast? = some z := by
      rw [← List.cons_append, List.getLast?_concat]
    have hdrop : (a :: (mid ++ [z])).dropLast = a :: mid := by
      rw [← List.cons_append, List.dropLast_concat]
    by_cases ha : a = '"'
    · subst ha
      by_cases hz : z = '"'
      · subst hz
        by_cases hmid : mid = []
        · subst hmid; decide
        · have hm1 : 1 ≤ mid.length := List.length_pos.mpr hmid
          rw [stripQuotes]
          simp only [hc0, hlen, hclast, eq_self_iff_true, true_and]
          split_ifs with g1 g2 g3 g4 g5
          all_goals try contradiction
          all_goals try omega
          have hx : mid.length + 2 - 2 + 1 = mid.length + 1 := by omega
          rw [hx]
          have hs : slice ('"' :: (mid ++ ['"'])) 1 (mid.length + 1) = mid := by
            simp only [slice, List.drop_one, List.tail_cons, Nat.add_sub_cancel]
            exact List.take_left mid _
          rw [hs, stripLead, if_pos (by simp), List.tail_cons, stripTrail,
            if_pos ⟨List.getLast?_concat mid, by simpa using hm1⟩, List.dropLast_concat]
      · rw [stripQuotes]
        simp only [hc0, hlen, hclast, hz, eq_self_iff_true, true_and, false_and]
        split_ifs with g1 g2 g3 g4 g5
        all_goals try contradiction
        all_goals try omega
        have hx : mid.length + 2 - 1 + 1 = mid.length + 2 := by omega
        rw [hx]
        have hs : slice ('"' :: (mid ++ [z])) 1 (mid.length + 2) = mid ++ [z] := by
          simp only [slice, List.drop_one, List.tail_cons]
          have hy : mid.length + 2 - 1 = (mid ++ [z]).length := by simp
          rw [hy, List.take_length]
        rw [hs, stripLead, if_pos (by simp), List.tail_cons, stripTrail, if_neg]
        rintro ⟨h, -⟩
        rw [List.getLast?_concat] at h
        exact hz (by injection h)
    · rw [stripQuotes]
      by_cases hz : z = '"'
      · subst hz
        simp only [hc0, hlen, hclast, eq_false ha, eq_self_iff_true, true_and, false_and]
        split_ifs with g1 g2 g3 g4 g5
        all_goals try contradiction
        all_goals try omega
        have hx : mid.length + 2 - 2 + 1 = mid.length + 1 := by omega
        rw [hx]
        have hs : slice (a :: (mid ++ ['"'])) 0 (mid.length + 1) = a :: mid := by
          simp only [slice, List.drop_zero, Nat.sub_zero]
          rw [List.take_succ_cons, List.take_left]
        rw [hs, stripLead, if_neg (by simp [ha]), stripTrail,
          if_pos ⟨hlast, by rw [hlen]; omega⟩, hdrop]
      · simp only [hc0, hlen, hclast, eq_false ha, eq_false hz, false_and]
        split_ifs with g1 g2 g3
        all_goals try contradiction
        all_goals try omega
        have hx : mid.length + 2 - 1 + 1 = mid.length + 2 := by omega
        rw [hx]
        have hs : slice (a :: (mid ++ [z])) 0 (mid.length + 2) = a :: (mid ++ [z]) := by
          simp only [slice, List.drop_zero, Nat.sub_zero]
          rw [← hlen, List.take_length]
        rw [hs, stripLead, if_neg (by simp [ha]), stripTrail, if_neg]
        rintro ⟨h, -⟩
        rw [hlast] at h
        exact hz (by injection h)

/-- C4 witness: the amended statement applied at a concrete quoted token. -/
theorem c4_witness :
    stripQuotes ("\"ab\"".toList) = some (stripTrail (stripLead ("\"ab\"".toList))) :=
  c4_stripQuotes_amended ("\"ab\"".toList) (by decide) (by decide)

/- ### Claim C7 -/

/-- The argv array of the scenario (source test case "options argv"). -/
def argvEx : List (List Char) :=
  ["binary.exe".toList, "--t=42".toList, "--u".toList, "\"param param\"".toList,
   "param param".toList]

/-- C7: parsing that argv array with the `(argc, argv)` constructor (first
element skipped, each element in single-value mode) yields exactly the two
positional arguments "param param" and "param param" — the unquoted element
with internal whitespace stays one whole positional argument — with
`get_int("t") = 42` and `has_opt("u")` true. -/
theorem c7_argv_scenario :
    (optionsFromArgv argvEx).args = ["param param".toList, "param param".toList] ∧
    argCount (optionsFromArgv argvEx) = 2 ∧
    getInt (optionsFromArgv argvEx) ("t".toList) = some 42 ∧
    hasOpt (optionsFromArgv argvEx) ("u".toList) = true :=
  ⟨rfl, rfl, rfl, rfl⟩

/- ### Claim C1 -/

/-- C1 counterexample: the key "t" is present with the stored value "42abc" —
trailing non-digit content after a valid integer prefix — yet `get_int`
returns 42, not the claimed not-found. -/
theorem c1_counterexample :
    getString (optionsFromCmd ("--t=42abc".toList)) ("t".toList) = some ("42abc".toList) ∧
    getInt (optionsFromCmd ("--t=42abc".toList)) ("t".toList) = some 42 :=
  ⟨rfl, rfl⟩

/- ### Claim C3 -/

/-- C3 counterexample: after parsing "--k=1 --k" the stored value of "k" is
"1", not the empty string the claim requires — the later bare-flag occurrence
goes through the map's insert-if-absent and does not overwrite. -/
theorem c3_counterexample :
    getString (optionsFromCmd ("--k=1 --k".toList)) ("k".toList) = some ("1".toList) ∧
    ("1".toList : List Char) ≠ [] :=
  ⟨rfl, by decide⟩

theorem lookupA_storeOpt (m : List (List Char × List Char)) (k v : List Char) :
    lookupA (storeOpt m k v) k = some v := by
  induction m with
  | nil => simp [storeOpt, lookupA]
  | cons p t ih =>
    obtain ⟨k', v'⟩ := p
    by_cases h : k' = k
    · simp [storeOpt, h, lookupA]
    · simp [storeOpt, h, lookupA, ih]

theorem lookupA_setDefault_of_present (m : List (List Char × List Char))
    (k w : List Char) (h : lookupA m k = some w) :
    lookupA (setDefault m k) k = some w := by
  simp [setDefault, h]

/-- C3 (amended): a later occurrence of a key with an explicit `=value` (or
quoted value) overwrites the earlier value — the map store is insert-or-
overwrite, so "--k=1 --k=2" gives "2" — but a later bare-flag occurrence of an
already present key goes through the map's insert-if-absent and leaves the
earlier value intact: "--k=1 --k" leaves `get_string("k") = "1"`, not the
empty string. -/
theorem c3_duplicate_keys :
    (∀ (m : List (List Char × List Char)) (k v : List Char),
        lookupA (storeOpt m k v) k = some v) ∧
    (∀ (m : List (List Char × List Char)) (k w : List Char),
        lookupA m k = some w → lookupA (setDefault m k) k = some w) ∧
    getString (optionsFromCmd ("--k=1 --k=2".toList)) ("k".toList) = some ("2".toList) ∧
    getString (optionsFromCmd ("--k=1 --k".toList)) ("k".toList) = some ("1".toList) :=
  ⟨lookupA_storeOpt, lookupA_setDefault_of_present, rfl, rfl⟩

/-- C3 witness: the insert-if-absent preservation applied at a concrete map. -/
theorem c3_witness :
    lookupA (setDefault [(("k".toList : List Char), ("1".toList : List Char))]
      ("k".toList)) ("k".toList) = some ("1".toList) :=
  c3_duplicate_keys.2.1 [(("k".toList : List Char), ("1".toList : List Char))]
    ("k".toList) ("1".toList) rfl

/- ### Claim C1 : the amended characterisation of get_int -/

/-- Spec-side reading of the amended C1: a stored value parses to `n` iff it
starts with an optional minus sign followed by a nonempty digit run whose
signed value is `n` and fits the `int` range; everything after the digit run
is arbitrary content not starting with a digit and is ignored. -/
def FromCharsSpec (v : List Char) (n : Int) : Prop :=
  ∃ (neg : Bool) (ds rest : List Char),
    v = (if neg then ['-'] else []) ++ ds ++ rest ∧
    ds ≠ [] ∧
    (∀ c ∈ ds, c.isDigit = true) ∧
    (∀ c, rest.head? = some c → c.isDigit = false) ∧
    n = (if neg then -1 else 1) * (natOfDigits ds : Int) ∧
    intMin ≤ n ∧ n ≤ intMax

theorem head?_dropWhile_false (p : Char → Bool) (l : List Char) :
    ∀ c, (l.dropWhile p).head? = some c → p c = false := by
  induction l with
  | nil => intro c h; simp [List.dropWhile] at h
  | cons a t ih =>
    intro c h
    by_cases hp : p a = true
    · rw [List.dropWhile_cons, if_pos hp] at h
      exact ih c h
    · rw [List.dropWhile_cons, if_neg hp, List.head?_cons] at h
      obtain rfl : a = c := by injection h
      simpa using hp

theorem takeWhile_append_eq (p : Char → Bool) (ds rest : List Char)
    (hds : ∀ c ∈ ds, p c = true)
    (hrest : ∀ c, rest.head? = some c → p c = false) :
    (ds ++ rest).takeWhile p = ds ∧ (ds ++ rest).dropWhile p = rest := by
  induction ds with
  | nil =>
    simp only [List.nil_append]
    cases rest with
    | nil => simp
    | cons r t =>
      have hr : p r = false := hrest r rfl
      simp [List.takeWhile_cons, List.dropWhile_cons, hr]
  | cons d ds ih =>
    have hd : p d = true := hds d (by simp)
    have ih' := ih (fun c hc => hds c (by simp [hc]))
    simp [List.takeWhile_cons, List.dropWhile_cons, hd, ih'.1, ih'.2]

theorem fromCharsInt_dash (t : List Char) :
    fromCharsInt ('-' :: t) =
      (if t.takeWhile Char.isDigit = [] then none
       else if intMin ≤ -(natOfDigits (t.takeWhile Char.isDigit) : Int) ∧
                 -(natOfDigits (t.takeWhile Char.isDigit) : Int) ≤ intMax
            then some (-(natOfDigits (t.takeWhile Char.isDigit) : Int)) else none) := by
  simp [fromCharsInt]

theorem fromCharsInt_plain (s : List Char) (h : ¬s.head? = some '-') :
    fromCharsInt s =
      (if s.takeWhile Char.isDigit = [] then none
       else if intMin ≤ (natOfDigits (s.takeWhile Char.isDigit) : Int) ∧
                 (natOfDigits (s.takeWhile Char.isDigit) : Int) ≤ intMax
            then some ((natOfDigits (s.takeWhile Char.isDigit) : Int)) else none) := by
  simp [fromCharsInt, h]

theorem fromCharsInt_eq_some_iff (v : List Char) (n : Int) :
    fromCharsInt v = some n ↔ FromCharsSpec v n := by
  constructor
  · intro h
    by_cases hneg : v.head? = some '-'
    · obtain ⟨t, rfl⟩ : ∃ t, v = '-' :: t := by
        cases v with
        | nil => simp at hneg
        | cons a t =>
          rw [List.head?_cons] at hneg
          obtain rfl : a = '-' := by injection hneg
          exact ⟨t, rfl⟩
      rw [fromCharsInt_dash] at h
      split_ifs at h with h1 h2
      obtain rfl : -(natOfDigits (t.takeWhile Char.isDigit) : Int) = n := by injection h
      refine ⟨true, t.takeWhile Char.isDigit, t.dropWhile Char.isDigit, ?_, h1, ?_, ?_, ?_, h2.1, h2.2⟩
      · simp [List.takeWhile_append_dropWhile]
      · exact fun c hc => List.mem_takeWhile_imp hc
      · exact head?_dropWhile_false Char.isDigit t
      · simp
    · rw [fromCharsInt_plain v hneg] at h
      split_ifs at h with h1 h2
      obtain rfl : (natOfDigits (v.takeWhile Char.isDigit) : Int) = n := by injection h
      refine ⟨false, v.takeWhile Char.isDigit, v.dropWhile Char.isDigit, ?_, h1, ?_, ?_, ?_, h2.1, h2.2⟩
      · simp [List.takeWhile_append_dropWhile]
      · exact fun c hc => List.mem_takeWhile_imp hc
      · exact head?_dropWhile_false Char.isDigit v
      · simp
  · rintro ⟨neg, ds, rest, rfl, hne, hds, hrest, rfl, hlo, hhi⟩
    have hdecomp := takeWhile_append_eq Char.isDigit ds rest hds hrest
    cases neg with
    | true =>
      have hlo' : intMin ≤ -(natOfDigits ds : Int) := by simpa using hlo
      have hhi' : -(natOfDigits ds : Int) ≤ intMax := by simpa using hhi
      show fromCharsInt ('-' :: (ds ++ rest)) = _
      rw [fromCharsInt_dash, hdecomp.1, if_neg hne, if_pos ⟨hlo', hhi'⟩]
      norm_num
    | false =>
      have hhead : ¬(ds ++ rest).head? = some '-' := by
        obtain ⟨d, ds', rfl⟩ := List.exists_cons_of_ne_nil hne
        rw [List.cons_append, List.head?_cons]
        intro hcon
        obtain rfl : d = '-' := by injection hcon
        have := hds '-' (by simp)
        simp at this
      have hlo' : intMin ≤ (natOfDigits ds : Int) := by simpa using hlo
      have hhi' : (natOfDigits ds : Int) ≤ intMax := by simpa using hhi
      show fromCharsInt (ds ++ rest) = _
      rw [fromCharsInt_plain _ hhead, hdecomp.1, if_neg hne, if_pos ⟨hlo', hhi'⟩]
      norm_num

/-- C1 (amended): for every parsed state and key, `get_int` returns `n`
exactly when the key is present and its stored value begins with an optional
minus sign and a nonempty digit run of signed value `n` fitting the `int`
range, followed by anything not starting with a digit — a partial parse:
trailing non-digit content after a valid integer prefix is accepted rather
than disqualifying, and a leading plus sign is not accepted; when `get_int`
finds nothing the defaulted overload returns the default. -/
theorem c1_getInt_amended (o : options) (k : List Char) (n : Int) :
    (getInt o k = some n ↔ ∃ v, getString o k = some v ∧ FromCharsSpec v n) ∧
    (getInt o k = none → ∀ d, getIntD o k d = d) := by
  constructor
  · cases hv : getString o k with
    | none => simp [getInt, hv]
    | some v =>
      have hbind : getInt o k = fromCharsInt v := by rw [getInt, hv]; rfl
      rw [hbind, fromCharsInt_eq_some_iff]
      constructor
      · intro hs
        exact ⟨v, rfl, hs⟩
      · rintro ⟨v', hv', hs⟩
        obtain rfl : v = v' := by injection hv'
        exact hs
  · intro h d
    simp [getIntD, h]

/-- C1 witness: the amended characterisation applied at the partial-parse
input "--t=42abc". -/
theorem c1_witness :
    getInt (optionsFromCmd ("--t=42abc".toList)) ("t".toList) = some 42 :=
  (c1_getInt_amended (optionsFromCmd ("--t=42abc".toList)) ("t".toList) 42).1.mpr
    ⟨"42abc".toList, rfl, false, "42".toList, "abc".toList, by decide, by decide,
      by decide, (fun c hc => by
        obtain rfl : 'a' = c := by injection hc
        decide), by decide, by decide, by decide⟩

/- ### Generic unfolding lemmas for the scanner loop -/

theorem parseLoop_succ (single : Bool) (s : List Char) (fuel i : Nat) (ps : PState)
    (ts : Nat) (key : List Char) (acc : options)
    (h : isEol (charAt s i) = false) :
    parseLoop single s (fuel + 1) i ps ts key acc =
      parseLoop single s fuel (i + 1) (stepState single s i ps ts key acc).ps
        (stepState single s i ps ts key acc).ts
        (stepState single s i ps ts key acc).key
        (stepState single s i ps ts key acc).acc := by
  conv_lhs => rw [parseLoop]
  simp [h]

theorem parseLoop_eol (single : Bool) (s : List Char) (fuel i : Nat) (ps : PState)
    (ts : Nat) (key : List Char) (acc : options)
    (h : isEol (charAt s i) = true) :
    parseLoop single s (fuel + 1) i ps ts key acc =
      flushEol s i (stepState single s i ps ts key acc) := by
  conv_lhs => rw [parseLoop]
  simp [h]

/- ### Claim C5 -/

theorem contains_true_of_mem_trueValues (v : List Char) (h : v ∈ trueValues) :
    trueValues.contains v = true :=
  List.elem_iff.mpr h

theorem contains_true_of_mem_falseValues (v : List Char) (h : v ∈ falseValues) :
    falseValues.contains v = true :=
  List.elem_iff.mpr h

theorem contains_false_of_not_mem (l : List (List Char)) (v : List Char)
    (h : v ∉ l) : l.contains v = false := by
  by_contra hcon
  exact h (List.elem_iff.mp (by simpa using hcon))

theorem trueValues_not_contains_of_mem_false (v : List Char) (h : v ∈ falseValues) :
    trueValues.contains v = false := by
  simp only [falseValues, List.mem_cons, List.not_mem_nil, or_false] at h
  rcases h with rfl|rfl|rfl|rfl|rfl|rfl|rfl|rfl <;> decide

/-- C5: `get_bool(key, default)` returns the default when the key is absent,
`true` when the key is present with an empty value, and for a present
non-empty value returns `true` exactly on the fixed case-sensitive true-set,
`false` exactly on the fixed false-set, and raises the
unrecognized-boolean-literal error on every other value. -/
theorem c5_getBool_table (o : options) (k : List Char) (d : Bool) :
    (getString o k = none → getBool o k d = .ok d) ∧
    (getString o k = some [] → getBool o k d = .ok true) ∧
    (∀ v, getString o k = some v → v ≠ [] →
      ((v ∈ trueValues → getBool o k d = .ok true) ∧
       (v ∈ falseValues → getBool o k d = .ok false) ∧
       (v ∉ trueValues → v ∉ falseValues →
         getBool o k d = .error "boolean option argument not recognized"))) := by
  refine ⟨?_, ?_, ?_⟩
  · intro h
    simp [getBool, h]
  · intro h
    simp [getBool, h]
  · intro v hv hne
    have hred : getBool o k d =
        (if v = [] then .ok true
         else if trueValues.contains v then .ok true
         else if falseValues.contains v then .ok false
         else .error "boolean option argument not recognized") := by
      rw [getBool, hv]
    refine ⟨?_, ?_, ?_⟩
    · intro hmem
      rw [hred, if_neg hne, if_pos (contains_true_of_mem_trueValues v hmem)]
    · intro hmem
      rw [hred, if_neg hne,
        if_neg (by rw [trueValues_not_contains_of_mem_false v hmem]; exact Bool.false_ne_true),
        if_pos (contains_true_of_mem_falseValues v hmem)]
    · intro hmt hmf
      rw [hred, if_neg hne,
        if_neg (by rw [contains_false_of_not_mem _ _ hmt]; exact Bool.false_ne_true),
        if_neg (by rw [contains_false_of_not_mem _ _ hmf]; exact Bool.false_ne_true)]

/-- C5 witness: the table applied at a state holding "a" ↦ "yes". -/
theorem c5_witness :
    getBool (⟨[], [("a".toList, "yes".toList)]⟩ : options) ("a".toList) false
      = .ok true :=
  ((c5_getBool_table ⟨[], [("a".toList, "yes".toList)]⟩ ("a".toList) false).2.2
    ("yes".toList) rfl (by decide)).1 (by decide)

/- ### Claim C9 -/

/-- C9: `get_required_string` returns the stored view whenever the key is
present (a present key with empty value included) and fails with the
missing-option error exactly when the key is absent; in this embedding every
accessor is a pure function of the parsed state, so the state is unchanged by
construction. -/
theorem c9_getRequiredString (o : options) (k : List Char) :
    (∀ v, getString o k = some v → getRequiredString o k = .ok v) ∧
    (getString o k = none → getRequiredString o k = .error "option not provided") := by
  constructor
  · intro v hv
    simp [getRequiredString, hv]
  · intro hv
    simp [getRequiredString, hv]

/-- C9 witness: applied at a state where the key is present with an empty
value. -/
theorem c9_witness :
    getRequiredString (⟨[], [("k".toList, [])]⟩ : options) ("k".toList) = .ok [] :=
  (c9_getRequiredString ⟨[], [("k".toList, [])]⟩ ("k".toList)).1 [] rfl

/- ### Claim C2 -/

/-- In any of the three token-accumulating states, a scan over plain 'a'
characters never stores anything and never flushes: when fuel runs out the
accumulated result is returned unchanged. -/
theorem parseLoop_stuck (single : Bool) (s : List Char) :
    ∀ fuel i ts key acc ps,
      (ps = PState.inKey ∨ ps = PState.inValue ∨ ps = PState.inQuoted) →
      (∀ j, i ≤ j → j < i + fuel → charAt s j = 'a') →
      parseLoop single s fuel i ps ts key acc = acc := by
  intro fuel
  induction fuel with
  | zero => intro i ts key acc ps hps hch; rfl
  | succ f ih =>
    intro i ts key acc ps hps hch
    have hc : charAt s i = 'a' := hch i (le_refl i) (by omega)
    have heol : isEol (charAt s i) = false := by rw [hc]; decide
    have hw : isWhitespace (charAt s i) = false := by rw [hc]; decide
    have he : isEqualSign (charAt s i) = false := by rw [hc]; decide
    have hq : isQuote (charAt s i) = false := by rw [hc]; decide
    rw [parseLoop_succ single s f i ps ts key acc heol]
    have hch' : ∀ j, i + 1 ≤ j → j < (i + 1) + f → charAt s j = 'a' :=
      fun j h1 h2 => hch j (by omega) (by omega)
    rcases hps with rfl | rfl | rfl
    · have hstep : stepState single s i .inKey ts key acc = ⟨.inKey, ts, key, acc⟩ := by
        simp [stepState, hw, he]
      rw [hstep]
      exact ih (i + 1) ts key acc .inKey (Or.inl rfl) hch'
    · have hstep : stepState single s i .inValue ts key acc = ⟨.inValue, ts, key, acc⟩ := by
        simp [stepState, hw, hq]
      rw [hstep]
      exact ih (i + 1) ts key acc .inValue (Or.inr (Or.inl rfl)) hch'
    · have hstep : stepState single s i .inQuoted ts key acc = ⟨.inQuoted, ts, key, acc⟩ := by
        simp [stepState, hq]
      rw [hstep]
      exact ih (i + 1) ts key acc .inQuoted (Or.inr (Or.inr rfl)) hch'

/-- An unquoted token filling the whole scan window: nothing is recorded. -/
theorem cmd_long_value_empty (n : Nat) (h : max_length ≤ n) :
    optionsFromCmd (List.replicate n 'a') = ⟨[], []⟩ := by
  have hn : (4096 : Nat) ≤ n := h
  rw [optionsFromCmd, parseCall]
  have h0 : charAt (List.replicate n 'a') 0 = 'a' := charAt_replicate n 0 'a' (by omega)
  have heol : isEol (charAt (List.replicate n 'a') 0) = false := by rw [h0]; decide
  rw [show max_length = 4095 + 1 from rfl, parseLoop_succ _ _ _ _ _ _ _ _ heol]
  have hw : isWhitespace (charAt (List.replicate n 'a') 0) = false := by rw [h0]; decide
  have hd : isDash (charAt (List.replicate n 'a') 0) = false := by rw [h0]; decide
  have hq : isQuote (charAt (List.replicate n 'a') 0) = false := by rw [h0]; decide
  have hstep : stepState false (List.replicate n 'a') 0 .idle 0 [] ⟨[], []⟩ =
      ⟨.inValue, 0, [], ⟨[], []⟩⟩ := by
    simp [stepState, hw, hd, hq]
  rw [hstep]
  exact parseLoop_stuck false (List.replicate n 'a') 4095 1 0 [] ⟨[], []⟩ .inValue
    (Or.inr (Or.inl rfl))
    (fun j hj1 hj2 => charAt_replicate n j 'a' (by omega))

/-- A key token filling the whole scan window after "--": nothing is
recorded. -/
theorem cmd_long_key_empty (n : Nat) (h : max_length ≤ n) :
    optionsFromCmd ('-' :: '-' :: List.replicate n 'a') = ⟨[], []⟩ := by
  have hn : (4096 : Nat) ≤ n := h
  rw [optionsFromCmd, parseCall]
  have hc0 : charAt ('-' :: '-' :: List.replicate n 'a') 0 = '-' := rfl
  have hc1 : charAt ('-' :: '-' :: List.replicate n 'a') 1 = '-' := rfl
  have hc2 : charAt ('-' :: '-' :: List.replicate n 'a') 2 = 'a' := by
    rw [show (2 : Nat) = 0 + 1 + 1 from rfl, charAt_cons_succ, charAt_cons_succ]
    exact charAt_replicate n 0 'a' (by omega)
  have heol0 : isEol (charAt ('-' :: '-' :: List.replicate n 'a') 0) = false := by
    rw [hc0]; decide
  have heol1 : isEol (charAt ('-' :: '-' :: List.replicate n 'a') 1) = false := by
    rw [hc1]; decide
  have heol2 : isEol (charAt ('-' :: '-' :: List.replicate n 'a') 2) = false := by
    rw [hc2]; decide
  rw [show max_length = 4095 + 1 from rfl, parseLoop_succ _ _ _ _ _ _ _ _ heol0]
  have hstep0 : stepState false ('-' :: '-' :: List.replicate n 'a') 0 .idle 0 [] ⟨[], []⟩ =
      ⟨.dash1, 0, [], ⟨[], []⟩⟩ := by
    have hw : isWhitespace (charAt ('-' :: '-' :: List.replicate n 'a') 0) = false := by
      rw [hc0]; decide
    have hd : isDash (charAt ('-' :: '-' :: List.replicate n 'a') 0) = true := by
      rw [hc0]; decide
    simp [stepState, hw, hd]
  rw [hstep0]
  rw [show (4095 : Nat) = 4094 + 1 from rfl, parseLoop_succ _ _ _ _ _ _ _ _ heol1]
  have hstep1 : stepState false ('-' :: '-' :: List.replicate n 'a') 1 .dash1 0 [] ⟨[], []⟩ =
      ⟨.dash2, 0, [], ⟨[], []⟩⟩ := by
    have hd : isDash (charAt ('-' :: '-' :: List.replicate n 'a') 1) = true := by
      rw [hc1]; decide
    simp [stepState, hd]
  rw [hstep1]
  rw [show (4094 : Nat) = 4093 + 1 from rfl, parseLoop_succ _ _ _ _ _ _ _ _ heol2]
  have hstep2 : stepState false ('-' :: '-' :: List.replicate n 'a') 2 .dash2 0 [] ⟨[], []⟩ =
      ⟨.inKey, 2, [], ⟨[], []⟩⟩ := by
    have hw : isWhitespace (charAt ('-' :: '-' :: List.replicate n 'a') 2) = false := by
      rw [hc2]; decide
    simp [stepState, hw]
  rw [hstep2]
  refine parseLoop_stuck false ('-' :: '-' :: List.replicate n 'a') 4093 3 2 [] ⟨[], []⟩
    .inKey (Or.inl rfl) (fun j hj1 hj2 => ?_)
  obtain ⟨m, rfl⟩ : ∃ m, j = m + 1 + 1 := ⟨j - 2, by omega⟩
  rw [charAt_cons_succ, charAt_cons_succ]
  exact charAt_replicate n m 'a' (by omega)

/-- A quoted token filling the whole scan window: nothing is recorded. -/
theorem cmd_long_quoted_empty (n : Nat) (h : max_length ≤ n) :
    optionsFromCmd ('"' :: List.replicate n 'a') = ⟨[], []⟩ := by
  have hn : (4096 : Nat) ≤ n := h
  rw [optionsFromCmd, parseCall]
  have hc0 : charAt ('"' :: List.replicate n 'a') 0 = '"' := rfl
  have heol0 : isEol (charAt ('"' :: List.replicate n 'a') 0) = false := by
    rw [hc0]; decide
  rw [show max_length = 4095 + 1 from rfl, parseLoop_succ _ _ _ _ _ _ _ _ heol0]
  have hstep0 : stepState false ('"' :: List.replicate n 'a') 0 .idle 0 [] ⟨[], []⟩ =
      ⟨.inQuoted, 0, [], ⟨[], []⟩⟩ := by
    have hw : isWhitespace (charAt ('"' :: List.replicate n 'a') 0) = false := by
      rw [hc0]; decide
    have hd : isDash (charAt ('"' :: List.replicate n 'a') 0) = false := by
      rw [hc0]; decide
    have hq : isQuote (charAt ('"' :: List.replicate n 'a') 0) = true := by
      rw [hc0]; decide
    simp [stepState, hw, hd, hq]
  rw [hstep0]
  refine parseLoop_stuck false ('"' :: List.replicate n 'a') 4095 1 0 [] ⟨[], []⟩
    .inQuoted (Or.inr (Or.inr rfl)) (fun j hj1 hj2 => ?_)
  obtain ⟨m, rfl⟩ : ∃ m, j = m + 1 := ⟨j - 1, by omega⟩
  rw [charAt_cons_succ]
  exact charAt_replicate n m 'a' (by omega)

/-- C2 counterexample: an unquoted token of 4097 'a' characters has no null
terminator within the scan bound; the claim requires the dangling value (its
first 4096 characters) to be stored as a positional argument, but the parse
returns with nothing stored at all. -/
theorem c2_counterexample :
    optionsFromCmd (List.replicate 4097 'a') = ⟨[], []⟩ :=
  cmd_long_value_empty 4097 (by decide)

/-- C2 (amended): when the scanned length reaches the fixed bound before a
null terminator is seen, the parse returns without any end-of-input flush:
the token in flight — an unquoted value, a key, or a quoted value — is
discarded entirely, not stored truncated; flushing happens only at a null
terminator. -/
theorem c2_truncation_amended (n : Nat) (h : max_length ≤ n) :
    optionsFromCmd (List.replicate n 'a') = ⟨[], []⟩ ∧
    optionsFromCmd ('-' :: '-' :: List.replicate n 'a') = ⟨[], []⟩ ∧
    optionsFromCmd ('"' :: List.replicate n 'a') = ⟨[], []⟩ :=
  ⟨cmd_long_value_empty n h, cmd_long_key_empty n h, cmd_long_quoted_empty n h⟩

/-- C2 witness: the amended statement applied at length 4097. -/
theorem c2_witness :
    optionsFromCmd ('-' :: '-' :: List.replicate 4097 'a') = ⟨[], []⟩ :=
  (c2_truncation_amended 4097 (by decide)).2.1

/- ### Claim C8 -/

/-- Scanning in the key state over characters that are not whitespace, not an
equal sign and not null, up to the end of the buffer: at the null terminator
the key span from `ts` to the end is recorded as present with empty value. -/
theorem parseLoop_keyRun (single : Bool) (s : List Char) :
    ∀ fuel i ts key acc,
      i ≤ s.length → ts < s.length → s.length < i + fuel →
      (∀ j, i ≤ j → j < s.length →
        isWhitespace (charAt s j) = false ∧ isEqualSign (charAt s j) = false ∧
        isEol (charAt s j) = false) →
      parseLoop single s fuel i .inKey ts key acc =
        { acc with opts := setDefault acc.opts (slice s ts s.length) } := by
  intro fuel
  induction fuel with
  | zero =>
    intro i ts key acc h1 h2 h3 h4
    exact absurd h3 (by omega)
  | succ f ih =>
    intro i ts key acc h1 h2 h3 h4
    by_cases hi : i = s.length
    · subst hi
      have hc : charAt s s.length = '\x00' := charAt_eq_null s s.length (le_refl _)
      have heol : isEol (charAt s s.length) = true := by rw [hc]; decide
      have hw : isWhitespace (charAt s s.length) = false := by rw [hc]; decide
      have he : isEqualSign (charAt s s.length) = false := by rw [hc]; decide
      rw [parseLoop_eol _ _ _ _ _ _ _ _ heol]
      have hstep : stepState single s s.length .inKey ts key acc =
          ⟨.inKey, ts, key, acc⟩ := by
        simp [stepState, hw, he]
      rw [hstep]
      simp [flushEol, h2]
    · have hlt : i < s.length := by omega
      have h4i := h4 i (le_refl i) hlt
      have hstep : stepState single s i .inKey ts key acc = ⟨.inKey, ts, key, acc⟩ := by
        simp [stepState, h4i.1, h4i.2.1]
      rw [parseLoop_succ _ _ _ _ _ _ _ _ h4i.2.2, hstep]
      exact ih (i + 1) ts key acc (by omega) h2 (by omega)
        (fun j hj1 hj2 => h4 j (by omega) hj2)

/-- Parsing the single-dash bare flag "-key" records the key as present with
an empty value. -/
theorem optionsFromCmd_flag_dash (k : List Char) (hne : k ≠ [])
    (hlen : k.length ≤ 4093) (hd : isDash (charAt k 0) = false)
    (hk : ∀ c ∈ k, isWhitespace c = false ∧ isEqualSign c = false ∧ isEol c = false) :
    optionsFromCmd ('-' :: k) = ⟨[], [(k, [])]⟩ := by
  have hkpos : 0 < k.length := List.length_pos.mpr hne
  have hm := hk (charAt k 0) (charAt_mem k 0 hkpos)
  rw [optionsFromCmd, parseCall]
  have hc0 : charAt ('-' :: k) 0 = '-' := rfl
  have heol0 : isEol (charAt ('-' :: k) 0) = false := by rw [hc0]; decide
  rw [show max_length = 4095 + 1 from rfl, parseLoop_succ _ _ _ _ _ _ _ _ heol0]
  have hstep0 : stepState false ('-' :: k) 0 .idle 0 [] ⟨[], []⟩ =
      ⟨.dash1, 0, [], ⟨[], []⟩⟩ := by
    have hw : isWhitespace (charAt ('-' :: k) 0) = false := by rw [hc0]; decide
    have hda : isDash (charAt ('-' :: k) 0) = true := by rw [hc0]; decide
    simp [stepState, hw, hda]
  rw [hstep0]
  have hc1 : charAt ('-' :: k) 1 = charAt k 0 := charAt_cons_succ '-' k 0
  have heol1 : isEol (charAt ('-' :: k) 1) = false := by rw [hc1]; exact hm.2.2
  rw [show (4095 : Nat) = 4094 + 1 from rfl, parseLoop_succ _ _ _ _ _ _ _ _ heol1]
  have hstep1 : stepState false ('-' :: k) 1 .dash1 0 [] ⟨[], []⟩ =
      ⟨.inKey, 1, [], ⟨[], []⟩⟩ := by
    have hw : isWhitespace (charAt ('-' :: k) 1) = false := by rw [hc1]; exact hm.1
    have hda : isDash (charAt ('-' :: k) 1) = false := by rw [hc1]; exact hd
    simp [stepState, hw, hda]
  rw [hstep1]
  have hrun := parseLoop_keyRun false ('-' :: k) 4094 2 1 [] ⟨[], []⟩
    (by simp; omega) (by simp; omega) (by simp; omega)
    (fun j hj1 hj2 => by
      obtain ⟨m, rfl⟩ : ∃ m, j = m + 1 := ⟨j - 1, by omega⟩
      rw [charAt_cons_succ]
      exact hk (charAt k m) (charAt_mem k m (by simp at hj2; omega)))
  rw [hrun]
  have hsl : slice ('-' :: k) 1 (('-' :: k).length) = k := by
    simp only [slice, List.length_cons, List.drop_one, List.tail_cons,
      Nat.add_sub_cancel]
    exact List.take_length k
  rw [hsl]
  rfl

/-- Parsing the double-dash bare flag "--key" records the key as present with
an empty value. -/
theorem optionsFromCmd_flag_ddash (k : List Char) (hne : k ≠ [])
    (hlen : k.length ≤ 4093)
    (hk : ∀ c ∈ k, isWhitespace c = false ∧ isEqualSign c = false ∧ isEol c = false) :
    optionsFromCmd ('-' :: '-' :: k) = ⟨[], [(k, [])]⟩ := by
  have hkpos : 0 < k.length := List.length_pos.mpr hne
  have hm := hk (charAt k 0) (charAt_mem k 0 hkpos)
  rw [optionsFromCmd, parseCall]
  have hc0 : charAt ('-' :: '-' :: k) 0 = '-' := rfl
  have hc1 : charAt ('-' :: '-' :: k) 1 = '-' := rfl
  have hc2 : charAt ('-' :: '-' :: k) 2 = charAt k 0 := by
    rw [show (2 : Nat) = 0 + 1 + 1 from rfl, charAt_cons_succ, charAt_cons_succ]
  have heol0 : isEol (charAt ('-' :: '-' :: k) 0) = false := by rw [hc0]; decide
  have heol1 : isEol (charAt ('-' :: '-' :: k) 1) = false := by rw [hc1]; decide
  have heol2 : isEol (charAt ('-' :: '-' :: k) 2) = false := by rw [hc2]; exact hm.2.2
  rw [show max_length = 4095 + 1 from rfl, parseLoop_succ _ _ _ _ _ _ _ _ heol0]
  have hstep0 : stepState false ('-' :: '-' :: k) 0 .idle 0 [] ⟨[], []⟩ =
      ⟨.dash1, 0, [], ⟨[], []⟩⟩ := by
    have hw : isWhitespace (charAt ('-' :: '-' :: k) 0) = false := by rw [hc0]; decide
    have hda : isDash (charAt ('-' :: '-' :: k) 0) = true := by rw [hc0]; decide
    simp [stepState, hw, hda]
  rw [hstep0]
  rw [show (4095 : Nat) = 4094 + 1 from rfl, parseLoop_succ _ _ _ _ _ _ _ _ heol1]
  have hstep1 : stepState false ('-' :: '-' :: k) 1 .dash1 0 [] ⟨[], []⟩ =
      ⟨.dash2, 0, [], ⟨[], []⟩⟩ := by
    have hda : isDash (charAt ('-' :: '-' :: k) 1) = true := by rw [hc1]; decide
    simp [stepState, hda]
  rw [hstep1]
  rw [show (4094 : Nat) = 4093 + 1 from rfl, parseLoop_succ _ _ _ _ _ _ _ _ heol2]
  have hstep2 : stepState false ('-' :: '-' :: k) 2 .dash2 0 [] ⟨[], []⟩ =
      ⟨.inKey, 2, [], ⟨[], []⟩⟩ := by
    have hw : isWhitespace (charAt ('-' :: '-' :: k) 2) = false := by rw [hc2]; exact hm.1
    simp [stepState, hw]
  rw [hstep2]
  have hrun := parseLoop_keyRun false ('-' :: '-' :: k) 4093 3 2 [] ⟨[], []⟩
    (by simp; omega) (by simp; omega) (by simp; omega)
    (fun j hj1 hj2 => by
      obtain ⟨m, rfl⟩ : ∃ m, j = m + 1 + 1 := ⟨j - 2, by omega⟩
      rw [charAt_cons_succ, charAt_cons_succ]
      exact hk (charAt k m) (charAt_mem k m (by simp at hj2; omega)))
  rw [hrun]
  have hsl : slice ('-' :: '-' :: k) 2 (('-' :: '-' :: k).length) = k := by
    simp only [slice, List.length_cons]
    rw [show k.length + 1 + 1 - 2 = k.length by omega,
      show (('-' :: '-' :: k).drop 2) = k from rfl]
    exact List.take_length k
  rw [hsl]
  rfl

/-- C8: after parsing a bare flag token "-key" or "--key" (no equal sign,
single and double dash both accepted), the key is present, its stored value
is the empty string, and `get_bool` returns true.  The key is any nonempty
run of characters that are not whitespace, not '=', not null, does not start
with a dash, and fits the scan bound. -/
theorem c8_bare_flag (k : List Char) (hne : k ≠ []) (hlen : k.length ≤ 4093)
    (hd : isDash (charAt k 0) = false)
    (hk : ∀ c ∈ k, isWhitespace c = false ∧ isEqualSign c = false ∧ isEol c = false) :
    (hasOpt (optionsFromCmd ('-' :: k)) k = true ∧
     getString (optionsFromCmd ('-' :: k)) k = some [] ∧
     getBool (optionsFromCmd ('-' :: k)) k false = .ok true) ∧
    (hasOpt (optionsFromCmd ('-' :: '-' :: k)) k = true ∧
     getString (optionsFromCmd ('-' :: '-' :: k)) k = some [] ∧
     getBool (optionsFromCmd ('-' :: '-' :: k)) k false = .ok true) := by
  rw [optionsFromCmd_flag_dash k hne hlen hd hk, optionsFromCmd_flag_ddash k hne hlen hk]
  refine ⟨⟨?_, ?_, ?_⟩, ⟨?_, ?_, ?_⟩⟩ <;>
    simp [hasOpt, findOpt, getString, getBool, lookupA]

/-- C8 witness: the bare-flag behaviour applied at the key "u". -/
theorem c8_witness :
    hasOpt (optionsFromCmd ('-' :: "u".toList)) ("u".toList) = true :=
  (c8_bare_flag ("u".toList) (by decide) (by decide) (by decide) (by decide)).1.1

/- ### Claim C6 -/

/-- Invariant induction for C6: on an input with no quote characters, the
quoted-value state is unreachable and every span appended to the positional
list by the unquoted paths is nonempty, so no empty positional argument ever
appears. -/
theorem c6_loop (s : List Char) (hs : ∀ c ∈ s, isQuote c = false) :
    ∀ fuel (single : Bool) i ps ts key acc,
      [] ∉ acc.args →
      ps ≠ PState.inQuoted →
      (ps = PState.inValue → key = [] → ts < i ∧ ts < s.length) →
      (ps = PState.inKey → ts < i ∧ ts < s.length) →
      [] ∉ (parseLoop single s fuel i ps ts key acc).args := by
  intro fuel
  induction fuel with
  | zero => intro single i ps ts key acc ha hq hv hk; exact ha
  | succ f ih =>
    intro single i ps ts key acc ha hq hv hk
    have hquote : isQuote (charAt s i) = false := by
      by_cases hlt : i < s.length
      · exact hs _ (charAt_mem s i hlt)
      · rw [charAt_eq_null s i (by omega)]; decide
    by_cases heol : isEol (charAt s i) = true
    · have hc : charAt s i = '\x00' := by simpa [isEol] using heol
      have hw : isWhitespace (charAt s i) = false := by rw [hc]; decide
      have hd : isDash (charAt s i) = false := by rw [hc]; decide
      have he : isEqualSign (charAt s i) = false := by rw [hc]; decide
      rw [parseLoop_eol _ _ _ _ _ _ _ _ heol]
      cases ps with
      | idle =>
        have hstep : stepState single s i .idle ts key acc = ⟨.inValue, i, key, acc⟩ := by
          simp [stepState, hw, hd, hquote]
        rw [hstep]
        by_cases hkey : key.length > 0
        · simpa [flushEol, hkey] using ha
        · simpa [flushEol, hkey] using ha
      | dash1 =>
        have hstep : stepState single s i .dash1 ts key acc = ⟨.inKey, i, key, acc⟩ := by
          simp [stepState, hw, hd]
        rw [hstep]
        simpa [flushEol] using ha
      | dash2 =>
        have hstep : stepState single s i .dash2 ts key acc = ⟨.inKey, i, key, acc⟩ := by
          simp [stepState, hw]
        rw [hstep]
        simpa [flushEol] using ha
      | inKey =>
        have hstep : stepState single s i .inKey ts key acc = ⟨.inKey, ts, key, acc⟩ := by
          simp [stepState, hw, he]
        rw [hstep]
        by_cases hts : ts < i
        · simpa [flushEol, hts] using ha
        · simpa [flushEol, hts] using ha
      | inValue =>
        have hstep : stepState single s i .inValue ts key acc = ⟨.inValue, ts, key, acc⟩ := by
          simp [stepState, hquote, hw]
        rw [hstep]
        by_cases hkey : key.length > 0
        · simpa [flushEol, hkey] using ha
        · have hkey' : key = [] := by
            simpa [List.length_eq_zero] using hkey
          obtain ⟨hti, htl⟩ := hv rfl hkey'
          have hne := slice_ne_nil s ts i hti htl
          simp only [flushEol, hkey, if_false, hti, if_true, gt_iff_lt,
            Nat.lt_irrefl, List.mem_append, List.mem_singleton]
          rintro (hc1 | hc2)
          · exact ha hc1
          · exact hne hc2.symm
      | inQuoted => exact absurd rfl hq
    · have heol' : isEol (charAt s i) = false := by simpa using heol
      have hii : i < s.length := lt_length_of_not_eol s i heol'
      rw [parseLoop_succ _ _ _ _ _ _ _ _ heol']
      cases ps with
      | idle =>
        by_cases hw : isWhitespace (charAt s i) = true
        · have hstep : stepState single s i .idle ts key acc = ⟨.idle, ts, key, acc⟩ := by
            simp [stepState, hw]
          rw [hstep]
          exact ih single (i + 1) .idle ts key acc ha (by decide)
            (fun h => absurd h (by decide)) (fun h => absurd h (by decide))
        · by_cases hd : isDash (charAt s i) = true
          · by_cases hkey : key.length > 0
            · have hstep : stepState single s i .idle ts key acc =
                  ⟨.dash1, ts, key, { acc with opts := setDefault acc.opts key }⟩ := by
                simp [stepState, hw, hd, hkey]
              rw [hstep]
              exact ih single (i + 1) .dash1 ts key _ ha (by decide)
                (fun h => absurd h (by decide)) (fun h => absurd h (by decide))
            · have hstep : stepState single s i .idle ts key acc =
                  ⟨.dash1, ts, key, acc⟩ := by
                simp [stepState, hw, hd, hkey]
              rw [hstep]
              exact ih single (i + 1) .dash1 ts key acc ha (by decide)
                (fun h => absurd h (by decide)) (fun h => absurd h (by decide))
          · have hstep : stepState single s i .idle ts key acc =
                ⟨.inValue, i, key, acc⟩ := by
              simp [stepState, hw, hd, hquote]
            rw [hstep]
            exact ih single (i + 1) .inValue i key acc ha (by decide)
              (fun _ _ => ⟨by omega, hii⟩) (fun h => absurd h (by decide))
      | dash1 =>
        by_cases hd : isDash (charAt s i) = true
        · have hstep : stepState single s i .dash1 ts key acc = ⟨.dash2, ts, key, acc⟩ := by
            simp [stepState, hd]
          rw [hstep]
          exact ih single (i + 1) .dash2 ts key acc ha (by decide)
            (fun h => absurd h (by decide)) (fun h => absurd h (by decide))
        · by_cases hw : isWhitespace (charAt s i) = true
          · have hstep : stepState single s i .dash1 ts key acc = ⟨.idle, ts, key, acc⟩ := by
              simp [stepState, hd, hw]
            rw [hstep]
            exact ih single (i + 1) .idle ts key acc ha (by decide)
              (fun h => absurd h (by decide)) (fun h => absurd h (by decide))
          · have hstep : stepState single s i .dash1 ts key acc = ⟨.inKey, i, key, acc⟩ := by
              simp [stepState, hd, hw]
            rw [hstep]
            exact ih single (i + 1) .inKey i key acc ha (by decide)
              (fun h => absurd h (by decide)) (fun _ => ⟨by omega, hii⟩)
      | dash2 =>
        by_cases hw : isWhitespace (charAt s i) = true
        · have hstep : stepState single s i .dash2 ts key acc = ⟨.idle, ts, key, acc⟩ := by
            simp [stepState, hw]
          rw [hstep]
          exact ih single (i + 1) .idle ts key acc ha (by decide)
            (fun h => absurd h (by decide)) (fun h => absurd h (by decide))
        · have hstep : stepState single s i .dash2 ts key acc = ⟨.inKey, i, key, acc⟩ := by
            simp [stepState, hw]
          rw [hstep]
          exact ih single (i + 1) .inKey i key acc ha (by decide)
            (fun h => absurd h (by decide)) (fun _ => ⟨by omega, hii⟩)
      | inKey =>
        obtain ⟨hti, htl⟩ := hk rfl
        by_cases hw : isWhitespace (charAt s i) = true
        · have hstep : stepState single s i .inKey ts key acc =
              ⟨.idle, ts, key, { acc with opts := setDefault acc.opts (slice s ts i) }⟩ := by
            simp [stepState, hw, hti]
          rw [hstep]
          exact ih single (i + 1) .idle ts key _ ha (by decide)
            (fun h => absurd h (by decide)) (fun h => absurd h (by decide))
        · by_cases he : isEqualSign (charAt s i) = true
          · have hkne : slice s ts i ≠ [] := slice_ne_nil s ts i hti htl
            have hstep : stepState single s i .inKey ts key acc =
                ⟨.inValue, i + 1, slice s ts i, acc⟩ := by
              simp [stepState, hw, he]
            rw [hstep]
            exact ih single (i + 1) .inValue (i + 1) (slice s ts i) acc ha (by decide)
              (fun _ hk0 => absurd hk0 hkne) (fun h => absurd h (by decide))
          · have hstep : stepState single s i .inKey ts key acc =
                ⟨.inKey, ts, key, acc⟩ := by
              simp [stepState, hw, he]
            rw [hstep]
            exact ih single (i + 1) .inKey ts key acc ha (by decide)
              (fun h => absurd h (by decide)) (fun _ => ⟨by omega, htl⟩)
      | inValue =>
        by_cases hws : isWhitespace (charAt s i) = true ∧ single = false
        · by_cases hkey : key.length > 0
          · have hstep : stepState single s i .inValue ts key acc =
                ⟨.idle, ts, [], { acc with opts := storeOpt acc.opts key (slice s ts i) }⟩ := by
              simp [stepState, hquote, hws, hkey]
            rw [hstep]
            exact ih single (i + 1) .idle ts [] _ ha (by decide)
              (fun h => absurd h (by decide)) (fun h => absurd h (by decide))
          · have hkey' : key = [] := by
              simpa [List.length_eq_zero] using hkey
            obtain ⟨hti, htl⟩ := hv rfl hkey'
            have hne := slice_ne_nil s ts i hti htl
            have hstep : stepState single s i .inValue ts key acc =
                ⟨.idle, ts, [], { acc with args := acc.args ++ [slice s ts i] }⟩ := by
              simp [stepState, hquote, hws, hkey]
            rw [hstep]
            refine ih single (i + 1) .idle ts [] _ ?_ (by decide)
              (fun h => absurd h (by decide)) (fun h => absurd h (by decide))
            simp only [List.mem_append, List.mem_singleton]
            rintro (hc1 | hc2)
            · exact ha hc1
            · exact hne hc2.symm
        · have hstep : stepState single s i .inValue ts key acc =
              ⟨.inValue, ts, key, acc⟩ := by
            simp [stepState, hquote, hws]
          rw [hstep]
          refine ih single (i + 1) .inValue ts key acc ha (by decide)
            (fun _ hk0 => ?_) (fun h => absurd h (by decide))
          obtain ⟨hti, htl⟩ := hv rfl hk0
          exact ⟨by omega, htl⟩
      | inQuoted => exact absurd rfl hq

/-- C6: in multi-token mode a free-standing unquoted value never contributes
an empty positional argument — over any input without quote characters no
empty positional argument appears at all — while an empty quoted value is
kept: "" alone is stored as an empty positional argument, and a keyed empty
quoted value is stored as an empty option value. -/
theorem c6_empty_values :
    (∀ s : List Char, (∀ c ∈ s, isQuote c = false) → [] ∉ (optionsFromCmd s).args) ∧
    (optionsFromCmd ("\"\"".toList)).args = [[]] ∧
    getString (optionsFromCmd ("--k=\"\"".toList)) ("k".toList) = some [] := by
  refine ⟨?_, rfl, rfl⟩
  intro s hs
  rw [optionsFromCmd, parseCall]
  exact c6_loop s hs max_length false 0 .idle 0 [] ⟨[], []⟩ (by simp)
    (by decide) (fun h => absurd h (by decide)) (fun h => absurd h (by decide))

/-- C6 witness: no empty positional argument for a concrete quote-free
input. -/
theorem c6_witness :
    [] ∉ (optionsFromCmd ("a b".toList)).args :=
  c6_empty_values.1 ("a b".toList) (by decide)

end yopt
